import Mathlib

/-!
# Verification of the planisphere / terrain core of `tiles3d`

Shallow embedding of the geographic-grid, region-selection and
mesh-generation core (`src/planisphere.rs`, `src/terrain.rs`).

Conventions of the embedding:
* Rust `usize` arithmetic is modelled by `ℕ` (with Rust's truncating
  `as usize` on a non-negative `f64` modelled by `Nat.floor`, which also
  matches the saturation to `0` on negative values); `i32` is modelled
  by `ℤ`.
* `f64` arithmetic is modelled by `ℝ`.  All claims settled against this
  model concern branch structure, clamping, floors and exact
  trigonometric values whose truth is insensitive to rounding at the
  scale of the statements involved.
* Rust's `(NaN, NaN)` failure value of the inverse gnomonic projection
  is modelled by `Option`: `none` stands for the NaN pair.
-/

open Real

/-- `f64::to_radians`: degrees to radians. -/
noncomputable def toRad (d : ℝ) : ℝ := d * Real.pi / 180

/-- `Planisphere::get_lon_subdivisons` (sic): latitude-corrected number of
longitude subdivisions,
`(subpixel_divisions as f64 * latitude.to_radians().cos()).max(1.0) as usize`. -/
noncomputable def get_lon_subdivisons (S : ℕ) (latitude : ℝ) : ℕ :=
  ⌊max ((S : ℝ) * Real.cos (toRad latitude)) 1⌋₊

/-- `Planisphere::geo_to_subpixel`: geographic coordinates to a grid
address `(i, j, k)`.  `W`, `H`, `S` are the `width_pixels`,
`height_pixels` and `subpixel_divisions` fields. -/
noncomputable def geo_to_subpixel (W H S : ℕ) (longitude latitude : ℝ) :
    ℕ × ℕ × ℕ :=
  let norm_long := (longitude + 180) / 360
  let norm_lat := (latitude + 90) / 180
  let i := ⌊norm_long * (W : ℝ)⌋₊ % W
  let j := ⌊norm_lat * (H : ℝ)⌋₊ % H
  let lon_subdivisions := get_lon_subdivisons S latitude
  let sub_i := i % lon_subdivisions
  let sub_j := j % S
  (i, j, sub_i * S + sub_j)

/-- `Planisphere::subpixel_to_geo`: grid address `(i, j, k)` back to a
geographic point. -/
noncomputable def subpixel_to_geo (W H S : ℕ) (i j k : ℕ) : ℝ × ℝ :=
  let norm_long := (i : ℝ) / (W : ℝ)
  let norm_lat := (j : ℝ) / (H : ℝ)
  let longitude_corner := norm_long * 360 - 180
  let latitude_corner := norm_lat * 180 - 90
  let lon_subdivisions := get_lon_subdivisons S latitude_corner
  let sub_lon := k / S
  let sub_lat := k % S
  let next_lon := ((i : ℝ) + 1) / (W : ℝ)
  let next_lat := ((j : ℝ) + 1) / (H : ℝ)
  let next_corner_lon := next_lon * 360 - 180
  let next_corner_lat := next_lat * 180 - 90
  (longitude_corner +
     ((sub_lon : ℝ) / (lon_subdivisions : ℝ)) * (next_corner_lon - longitude_corner),
   latitude_corner +
     ((sub_lat : ℝ) / (S : ℝ)) * (next_corner_lat - latitude_corner))

/-- The angle of `lat` degrees is at most `π/2` in absolute value when
`|lat| ≤ 90`. -/
theorem toRad_abs_le (lat : ℝ) (h : |lat| ≤ 90) : |toRad lat| ≤ Real.pi / 2 := by
  unfold toRad
  rw [abs_div, abs_mul, abs_of_pos Real.pi_pos, abs_of_pos (by norm_num : (180:ℝ) > 0)]
  rw [div_le_iff₀ (by norm_num)]
  calc |lat| * Real.pi ≤ 90 * Real.pi := by
        exact mul_le_mul_of_nonneg_right h Real.pi_pos.le
    _ = Real.pi / 2 * 180 := by ring

theorem cos_toRad_nonneg (lat : ℝ) (h : |lat| ≤ 90) :
    0 ≤ Real.cos (toRad lat) := by
  have h2 := toRad_abs_le lat h
  rw [abs_le] at h2
  exact Real.cos_nonneg_of_mem_Icc ⟨h2.1, h2.2⟩

/-- The subdivision count is always at least one. -/
theorem one_le_get_lon_subdivisons (S : ℕ) (lat : ℝ) :
    1 ≤ get_lon_subdivisons S lat := by
  unfold get_lon_subdivisons
  have : (1 : ℝ) ≤ max ((S : ℝ) * Real.cos (toRad lat)) 1 := le_max_right _ _
  exact Nat.le_floor (by exact_mod_cast this)

/-- With `S = 1` subdivision, every latitude gets exactly one
subdivision (the value `cos ≤ 1` is absorbed by the `max _ 1`). -/
theorem get_lon_subdivisons_one (lat : ℝ) : get_lon_subdivisons 1 lat = 1 := by
  unfold get_lon_subdivisons
  have h1 : (1 : ℝ) * Real.cos (toRad lat) ≤ 1 := by
    rw [one_mul]; exact Real.cos_le_one _
  rw [Nat.cast_one, max_eq_right h1, Nat.floor_one]

/-- At the poles (`lat = ±90`) the cosine vanishes and the subdivision
count collapses to one. -/
theorem get_lon_subdivisons_neg90 (S : ℕ) : get_lon_subdivisons S (-90) = 1 := by
  unfold get_lon_subdivisons toRad
  have : (-90 : ℝ) * Real.pi / 180 = -(Real.pi / 2) := by ring
  rw [this, Real.cos_neg, Real.cos_pi_div_two, mul_zero, max_eq_right (by norm_num),
    Nat.floor_one]

theorem get_lon_subdivisons_pos90 (S : ℕ) : get_lon_subdivisons S 90 = 1 := by
  unfold get_lon_subdivisons toRad
  have : (90 : ℝ) * Real.pi / 180 = Real.pi / 2 := by ring
  rw [this, Real.cos_pi_div_two, mul_zero, max_eq_right (by norm_num), Nat.floor_one]

/-- **C6 (amended).**  For `|lat| ≤ 90` the latitude-corrected
subdivision count computed by `get_lon_subdivisons` equals
`max 1 ⌊S * cos(lat in radians)⌋` — the Rust `as usize` cast *truncates*
rather than rounds — and consequently it is always `≥ 1` and is
non-increasing as `|lat|` grows towards `90`. -/
theorem c6_lon_subdivisons_floor_monotone (S : ℕ) (lat : ℝ)
    (h1 : -90 ≤ lat) (h2 : lat ≤ 90) :
    get_lon_subdivisons S lat = max 1 ⌊(S : ℝ) * Real.cos (toRad lat)⌋₊ ∧
    1 ≤ get_lon_subdivisons S lat ∧
    ∀ lat' : ℝ, |lat| ≤ |lat'| → |lat'| ≤ 90 →
      get_lon_subdivisons S lat' ≤ get_lon_subdivisons S lat := by
  have habs : |lat| ≤ 90 := abs_le.mpr ⟨h1, h2⟩
  refine ⟨?_, one_le_get_lon_subdivisons S lat, ?_⟩
  · unfold get_lon_subdivisons
    rcases le_total ((S : ℝ) * Real.cos (toRad lat)) 1 with hle | hge
    · rw [max_eq_right hle]
      have : ⌊(S : ℝ) * Real.cos (toRad lat)⌋₊ ≤ 1 := by
        calc ⌊(S : ℝ) * Real.cos (toRad lat)⌋₊ ≤ ⌊(1 : ℝ)⌋₊ :=
              Nat.floor_le_floor hle
          _ = 1 := Nat.floor_one
      rw [Nat.floor_one, max_eq_left this]
    · rw [max_eq_left hge]
      have : 1 ≤ ⌊(S : ℝ) * Real.cos (toRad lat)⌋₊ :=
        Nat.le_floor (by exact_mod_cast hge)
      rw [max_eq_right this]
  · intro lat' hge h90
    unfold get_lon_subdivisons
    apply Nat.floor_le_floor
    apply max_le_max_right
    apply mul_le_mul_of_nonneg_left _ (Nat.cast_nonneg S)
    have e1 : Real.cos (toRad lat) = Real.cos (|lat| * Real.pi / 180) := by
      unfold toRad
      rcases abs_cases lat with ⟨h, _⟩ | ⟨h, _⟩
      · rw [h]
      · rw [h]; rw [show -lat * Real.pi / 180 = -(lat * Real.pi / 180) by ring,
          Real.cos_neg]
    have e2 : Real.cos (toRad lat') = Real.cos (|lat'| * Real.pi / 180) := by
      unfold toRad
      rcases abs_cases lat' with ⟨h, _⟩ | ⟨h, _⟩
      · rw [h]
      · rw [h]; rw [show -lat' * Real.pi / 180 = -(lat' * Real.pi / 180) by ring,
          Real.cos_neg]
    rw [e1, e2]
    apply Real.cos_le_cos_of_nonneg_of_le_pi
    · positivity
    · have hm := mul_le_mul_of_nonneg_right h90 Real.pi_pos.le
      linarith [Real.pi_pos]
    · have hm := mul_le_mul_of_nonneg_right hge Real.pi_pos.le
      linarith

/-- Witness for C6 at `S = 8`, `lat = 0`, `lat' = 90`. -/
theorem c6_lon_subdivisons_floor_monotone_witness :
    (-90 : ℝ) ≤ 0 ∧ (0 : ℝ) ≤ 90 ∧
    get_lon_subdivisons 8 90 ≤ get_lon_subdivisons 8 0 := by
  refine ⟨by norm_num, by norm_num, ?_⟩
  exact (c6_lon_subdivisons_floor_monotone 8 0 (by norm_num) (by norm_num)).2.2
    90 (by norm_num) (by norm_num)

/-- **C6 counterexample.**  At `S = 3`, `lat = 60°` the code computes
`⌊max (3 · cos 60°) 1⌋ = ⌊1.5⌋ = 1`, while the claimed formula
`max 1 (round (3 · cos 60°)) = max 1 2 = 2`: the cast truncates, it does
not round. -/
theorem c6_counterexample :
    get_lon_subdivisons 3 60 = 1 ∧
    max 1 (round ((3 : ℝ) * Real.cos (toRad 60))) = 2 ∧
    ¬ ((get_lon_subdivisons 3 60 : ℤ) =
        max 1 (round ((3 : ℝ) * Real.cos (toRad 60)))) := by
  have hrad : toRad 60 = Real.pi / 3 := by unfold toRad; ring
  have hcos : Real.cos (toRad 60) = 1 / 2 := by rw [hrad, Real.cos_pi_div_three]
  have h1 : get_lon_subdivisons 3 60 = 1 := by
    unfold get_lon_subdivisons
    rw [hcos]
    have : max ((3 : ℕ) * (1 / 2) : ℝ) 1 = 3 / 2 := by
      rw [max_eq_left (by norm_num)]; norm_num
    rw [this]
    rw [Nat.floor_eq_iff (by norm_num)]
    norm_num
  have h2 : max 1 (round ((3 : ℝ) * Real.cos (toRad 60))) = 2 := by
    rw [hcos]
    have : round ((3 : ℝ) * (1 / 2)) = 2 := by
      rw [round_eq]; norm_num
    rw [this]; norm_num
  exact ⟨h1, h2, by rw [h1, h2]; norm_num⟩

/-- `Planisphere::get_neighbour`: pixel-level neighbour lookup with
longitude wrap at the date line and pole reflection (latitude overflow
mirrors `j` and shifts `i` by `width_pixels/2`).  Pure `i32` arithmetic,
modelled on `ℤ`; `x`, `y` are the in-range pixel coordinates. -/
def get_neighbour (W H : ℕ) (x y : ℕ) (dx dy : ℤ) : ℤ × ℤ :=
  let c0 : ℤ := (x : ℤ) + dx
  let c1 : ℤ := (y : ℤ) + dy
  -- latitude overflow past the north edge
  let p1 : ℤ × ℤ :=
    if (H : ℤ) ≤ c1 then
      (c0 + (W : ℤ) / 2, (H : ℤ) - (c1 - (H : ℤ) + 1))
    else (c0, c1)
  -- latitude overflow past the south edge
  let p2 : ℤ × ℤ :=
    if p1.2 < 0 then (p1.1 + (W : ℤ) / 2, -p1.2) else p1
  -- longitude wrap (single step, as in the source)
  let c0' : ℤ := if (W : ℤ) ≤ p2.1 then p2.1 - (W : ℤ) else p2.1
  let c0'' : ℤ := if c0' < 0 then (W : ℤ) + c0' else c0'
  (c0'', p2.2)

/-- **C7 (amended).**  For an in-range pixel `(x, y)`, a horizontal step
`|dx| ≤ 1`, `W ≥ 2`, and a vertical offset `dy` that overflows the
latitude range by a *single* pole crossing
(`H ≤ y + dy ≤ 2H - 1` or `-(H-1) ≤ y + dy ≤ -1`), `get_neighbour`
returns the mirrored latitude row (`2H - 1 - (y+dy)` at the north pole,
`-(y+dy)` at the south pole), which lies in `[0, H)`, and a longitude
index equal to `x + dx + W/2` modulo `W`.  (For larger `|dy|` the pole
shift is applied once per crossing and the claimed single `W/2` shift
fails, see the counterexample.) -/
theorem c7_pole_reflection (W H : ℕ) (x y : ℕ) (dx dy : ℤ)
    (hx : x < W) (hy : y < H) (hW : 2 ≤ W) (hdx : dx.natAbs ≤ 1)
    (hdy : ((H : ℤ) ≤ (y : ℤ) + dy ∧ (y : ℤ) + dy ≤ 2 * H - 1) ∨
           (1 - (H : ℤ) ≤ (y : ℤ) + dy ∧ (y : ℤ) + dy < 0)) :
    (get_neighbour W H x y dx dy).2 =
      (if (H : ℤ) ≤ (y : ℤ) + dy then 2 * H - 1 - ((y : ℤ) + dy)
       else -((y : ℤ) + dy)) ∧
    0 ≤ (get_neighbour W H x y dx dy).2 ∧
    (get_neighbour W H x y dx dy).2 < H ∧
    (get_neighbour W H x y dx dy).1 =
      ((x : ℤ) + dx + (W : ℤ) / 2) % W := by
  have hxZ : (x : ℤ) < W := by exact_mod_cast hx
  have hWZ : (2 : ℤ) ≤ W := by exact_mod_cast hW
  have hdxZ : -1 ≤ dx ∧ dx ≤ 1 := by
    constructor <;> omega
  have hhalf1 : 1 ≤ (W : ℤ) / 2 := by omega
  have hhalf2 : (W : ℤ) / 2 < W := by omega
  have hv0 : 0 ≤ (x : ℤ) + dx + (W : ℤ) / 2 := by omega
  have hv2 : (x : ℤ) + dx + (W : ℤ) / 2 < 2 * W := by omega
  have hmod : ∀ v : ℤ, 0 ≤ v → v < 2 * W →
      (if (if (W : ℤ) ≤ v then v - W else v) < 0 then
        (W : ℤ) + (if (W : ℤ) ≤ v then v - W else v)
       else (if (W : ℤ) ≤ v then v - W else v)) = v % W := by
    intro v h0 h2
    by_cases hcase : (W : ℤ) ≤ v
    · rw [if_pos hcase, if_neg (by omega)]
      have hsplit : v = (v - W) + W * 1 := by ring
      rw [show v % (W : ℤ) = ((v - W) + (W : ℤ) * 1) % W by rw [← hsplit],
        Int.add_mul_emod_self_left, Int.emod_eq_of_lt (by omega) (by omega)]
    · rw [if_neg hcase, if_neg (by omega)]
      exact (Int.emod_eq_of_lt (by omega) (by omega)).symm
  rcases hdy with ⟨hn1, hn2⟩ | ⟨hs1, hs2⟩
  · -- north-pole crossing
    have hcond : (H : ℤ) ≤ (y : ℤ) + dy := hn1
    have hjnn : ¬ ((H : ℤ) - ((y : ℤ) + dy - (H : ℤ) + 1) < 0) := by omega
    unfold get_neighbour
    simp only [if_pos hcond, if_neg hjnn]
    refine ⟨?_, ?_, ?_, hmod _ hv0 hv2⟩ <;> first | trivial | omega
  · -- south-pole crossing
    have hcond : ¬ ((H : ℤ) ≤ (y : ℤ) + dy) := by omega
    have hneg : (y : ℤ) + dy < 0 := hs2
    unfold get_neighbour
    simp only [if_neg hcond, if_pos hneg]
    refine ⟨?_, ?_, ?_, hmod _ hv0 hv2⟩ <;> first | trivial | omega

/-- Witness for C7: `W = 4`, `H = 2`, pixel `(0, 1)`, step `(0, 1)`
crosses the north pole once. -/
theorem c7_pole_reflection_witness :
    (0 : ℕ) < 4 ∧ (1 : ℕ) < 2 ∧ 2 ≤ 4 ∧ (0 : ℤ).natAbs ≤ 1 ∧
    (((2 : ℕ) : ℤ) ≤ ((1 : ℕ) : ℤ) + 1 ∧ ((1 : ℕ) : ℤ) + 1 ≤ 2 * (2 : ℕ) - 1) ∧
    (get_neighbour 4 2 0 1 0 1).1 = (((0 : ℕ) : ℤ) + 0 + ((4 : ℕ) : ℤ) / 2) % 4 := by
  refine ⟨by norm_num, by norm_num, by norm_num, by decide, ⟨by decide, by decide⟩, ?_⟩
  exact (c7_pole_reflection 4 2 0 1 0 1 (by norm_num) (by norm_num) (by norm_num)
    (by decide) (Or.inl ⟨by decide, by decide⟩)).2.2.2

/-- **C7 counterexample.**  With `W = 4`, `H = 2`, pixel `(0,0)` and
`dy = 4` (so `y + dy = 4` falls outside `[0, 2)`), the code applies the
pole shift twice: the returned `i` is `0`, not
`(x + dx + W/2) % W = 2` as the claim requires for every overflowing
`dy`. -/
theorem c7_counterexample :
    (0 : ℤ) + 4 < 0 ∨ (2 : ℤ) ≤ (0 : ℤ) + 4 ∧
    (get_neighbour 4 2 0 0 0 4).1 = 0 ∧
    (((0 : ℕ) : ℤ) + 0 + ((4 : ℕ) : ℤ) / 2) % 4 = 2 ∧
    (get_neighbour 4 2 0 0 0 4).1 ≠
      (((0 : ℕ) : ℤ) + 0 + ((4 : ℕ) : ℤ) / 2) % 4 := by
  right
  refine ⟨by decide, by decide, by decide, by decide⟩

/-- Four subpixel corners `[(l,t), (r,t), (r,b), (l,b)]` in clockwise
order, as returned by `get_subpixel_corners`. -/
abbrev Corners : Type := (ℝ × ℝ) × (ℝ × ℝ) × (ℝ × ℝ) × (ℝ × ℝ)

/-- An element of a region-selection result:
`(i, j, k, corners)` as in `Vec<(usize, usize, usize, [(f64, f64); 4])>`. -/
abbrev Subpix : Type := ℕ × ℕ × ℕ × Corners

/-- The `(i, j, k)` address part of a selection element. -/
def tripleOf (x : Subpix) : ℕ × ℕ × ℕ := (x.1, x.2.1, x.2.2.1)

/-- The corner latitude of pixel row `j`
(`j as f64 / height_pixels as f64 * 180.0 - 90.0`), recomputed inline
at several places in the source. -/
noncomputable def latitude_at_pixel (H : ℕ) (j : ℕ) : ℝ :=
  (j : ℝ) / (H : ℝ) * 180 - 90

/-- `Planisphere::get_pixel_boundaries`: `(left, right, top, bottom)`
geographic boundaries of pixel `(i, j)`, with the date-line hemisphere
adjustment. -/
noncomputable def get_pixel_boundaries (W H : ℕ) (i j : ℕ) : ℝ × ℝ × ℝ × ℝ :=
  let pixel_width := 360 / (W : ℝ)
  let pixel_height := 180 / (H : ℝ)
  let pixel_left := -180 + (i : ℝ) * pixel_width
  let pixel_right := pixel_left + pixel_width
  let pixel_top := -90 + (j : ℝ) * pixel_height
  let pixel_bottom := pixel_top + pixel_height
  let adjusted : ℝ × ℝ :=
    if (pixel_left ≤ -180 ∧ -180 ≤ pixel_right) ∨
       (pixel_left ≤ 180 ∧ 180 ≤ pixel_right) then
      if i < W / 2 then
        ((if 0 ≤ pixel_left then pixel_left - 360 else pixel_left),
         (if 0 < pixel_right then pixel_right - 360 else pixel_right))
      else
        ((if pixel_left < 0 then pixel_left + 360 else pixel_left),
         (if pixel_right ≤ 0 then pixel_right + 360 else pixel_right))
    else (pixel_left, pixel_right)
  (adjusted.1, adjusted.2, pixel_top, pixel_bottom)

/-- `Planisphere::get_subpixel_boundaries`: `(left, right, top, bottom)`
boundaries of subpixel `(sub_i, sub_j)` of pixel `(i, j)`, kept in the
parent pixel's hemisphere phase. -/
noncomputable def get_subpixel_boundaries (W H S : ℕ) (i j sub_i sub_j : ℕ) :
    ℝ × ℝ × ℝ × ℝ :=
  let pb := get_pixel_boundaries W H i j
  let pixel_left := pb.1
  let pixel_right := pb.2.1
  let pixel_top := pb.2.2.1
  let pixel_bottom := pb.2.2.2
  let lon_subdivisions := get_lon_subdivisons S (latitude_at_pixel H j)
  let pixel_width := pixel_right - pixel_left
  let pixel_height := pixel_bottom - pixel_top
  let sub_width := pixel_width / (lon_subdivisions : ℝ)
  let sub_height := pixel_height / (S : ℝ)
  let sub_left := pixel_left + (sub_i : ℝ) * sub_width
  let sub_right := sub_left + sub_width
  let sub_top := pixel_top + (sub_j : ℝ) * sub_height
  let sub_bottom := sub_top + sub_height
  let is_western := i < W / 2
  let adjusted : ℝ × ℝ :=
    if (sub_left ≤ -180 ∧ -180 ≤ sub_right) ∨
       (sub_left ≤ 180 ∧ 180 ≤ sub_right) then
      if is_western then
        ((if 0 ≤ sub_left then sub_left - 360 else sub_left),
         (if 0 < sub_right then sub_right - 360 else sub_right))
      else
        ((if sub_left < 0 then sub_left + 360 else sub_left),
         (if sub_right ≤ 0 then sub_right + 360 else sub_right))
    else
      if is_western ∧ 0 < sub_left ∧ 0 < sub_right then
        (sub_left - 360, sub_right - 360)
      else if ¬ is_western ∧ sub_left < 0 ∧ sub_right < 0 then
        (sub_left + 360, sub_right + 360)
      else (sub_left, sub_right)
  (adjusted.1, adjusted.2, sub_top, sub_bottom)

/-- `Planisphere::get_subpixel_corners`: the four corners
`[(l,t), (r,t), (r,b), (l,b)]` of subpixel `k` of pixel `(i, j)`. -/
noncomputable def get_subpixel_corners (W H S : ℕ) (i j k : ℕ) : Corners :=
  let sub_i := k / S
  let sub_j := k % S
  let b := get_subpixel_boundaries W H S i j sub_i sub_j
  ((b.1, b.2.2.1), (b.2.1, b.2.2.1), (b.2.1, b.2.2.2), (b.1, b.2.2.2))

/-- Rust's inclusive range `a..=b` as a list (empty when `b < a`). -/
def rangeIncl (a b : ℕ) : List ℕ := List.range' a (b + 1 - a)

/-- `Planisphere::get_subpixels_in_rectangle`: every subpixel of every
pixel in the inclusive rectangle `[min_i, max_i] × [min_j, max_j]`, with
the out-of-bounds `i` wrapped modulo `width_pixels` and the per-row
latitude-corrected subdivision count bounding `sub_i`. -/
noncomputable def get_subpixels_in_rectangle (W H S : ℕ)
    (min_i max_i min_j max_j : ℕ) : List Subpix :=
  (rangeIncl min_i max_i).flatMap (fun ii =>
    let i := if W ≤ ii then ii % W else ii
    (rangeIncl min_j max_j).flatMap (fun j =>
      let lon_subdivisions := get_lon_subdivisons S (latitude_at_pixel H j)
      (List.range lon_subdivisions).flatMap (fun sub_i =>
        (List.range S).map (fun sub_j =>
          (i, j, sub_i * S + sub_j,
            get_subpixel_corners W H S i j (sub_i * S + sub_j))))))

/-- The center element pushed first by each selector:
`(center_i, center_j, center_k, get_subpixel_corners(center))`. -/
noncomputable def center_subpixel (W H S ci cj ck : ℕ) : Subpix :=
  (ci, cj, ck, get_subpixel_corners W H S ci cj ck)

/-- `if a > b { a - b } else { b - a }`: absolute difference as written
in the source. -/
def natDistAbs (a b : ℕ) : ℕ := if b < a then a - b else b - a

/-- The search-box bounds shared by the three selectors:
`(min_i, max_i, min_j, max_j)` from the center pixel and the per-axis
pixel radii (`max_i` is *not* clamped to the map width — the wrap in
`get_subpixels_in_rectangle` absorbs the overflow; `max_j` is clamped to
`height_pixels - 1`). -/
def selection_bounds (H ci cj radius_x radius_y : ℕ) : ℕ × ℕ × ℕ × ℕ :=
  (if radius_x < ci then ci - radius_x else 0,
   ci + radius_x,
   if radius_y < cj then cj - radius_y else 0,
   min (cj + radius_y) (H - 1))

/-- The dead per-axis subpixel-step accumulation computed (into the
unused `_subpixel_distance` bindings) by
`Planisphere::get_subpixels_by_distance`. -/
def manhattan_subpixel_steps (S ci cj ck i j k : ℕ) : ℕ :=
  let center_sub_i := ck / S
  let center_sub_j := ck % S
  let sub_i := k / S
  let sub_j := k % S
  if i = ci ∧ j = cj then
    natDistAbs sub_i center_sub_i + natDistAbs sub_j center_sub_j
  else
    let dist_i := natDistAbs i ci
    let dist_j := natDistAbs j cj
    let horizontal :=
      if i ≠ ci then
        (if ci < i then (S - center_sub_i) + sub_i else center_sub_i + (S - sub_i)) +
          (if 1 < dist_i then (dist_i - 1) * S else 0)
      else natDistAbs sub_i center_sub_i
    let vertical :=
      if j ≠ cj then
        (if cj < j then (S - center_sub_j) + sub_j else center_sub_j + (S - sub_j)) +
          (if 1 < dist_j then (dist_j - 1) * S else 0)
      else natDistAbs sub_j center_sub_j
    horizontal + vertical

/-- `Planisphere::get_subpixels_by_distance` (Manhattan method): the
filter actually applied is `(dist_i + dist_j) * subpixel_divisions ≤
max_subpixel_distance` — the *pixel-level* Manhattan distance scaled by
`S`; the per-axis accumulation `manhattan_subpixel_steps` is computed
into unused bindings and never used. -/
noncomputable def get_subpixels_by_distance (W H S ci cj ck maxd : ℕ) :
    List Subpix :=
  let pixel_radius := maxd / S + 1
  let b := selection_bounds H ci cj pixel_radius pixel_radius
  let subpixels := get_subpixels_in_rectangle W H S b.1 b.2.1 b.2.2.1 b.2.2.2
  center_subpixel W H S ci cj ck ::
    subpixels.filter (fun x =>
      decide (¬ (x.1 = ci ∧ x.2.1 = cj ∧ x.2.2.1 = ck) ∧
        (natDistAbs x.1 ci + natDistAbs x.2.1 cj) * S ≤ maxd))

/-- Continuous-coordinate (`pixel * S + sub`) Euclidean distance between
the center and a candidate subpixel, as computed by
`get_subpixels_by_circular_distance`. -/
noncomputable def euclidean_subpixel_distance (S ci cj ck i j k : ℕ) : ℝ :=
  let center_continuous_i := ((ci * S + ck / S : ℕ) : ℝ)
  let center_continuous_j := ((cj * S + ck % S : ℕ) : ℝ)
  let continuous_i := ((i * S + k / S : ℕ) : ℝ)
  let continuous_j := ((j * S + k % S : ℕ) : ℝ)
  let dx := continuous_i - center_continuous_i
  let dy := continuous_j - center_continuous_j
  Real.sqrt (dx * dx + dy * dy)

/-- `Planisphere::get_subpixels_by_circular_distance` (Euclidean
method). -/
noncomputable def get_subpixels_by_circular_distance (W H S ci cj ck maxd : ℕ) :
    List Subpix :=
  let pixel_radius := maxd / S + 2
  let b := selection_bounds H ci cj pixel_radius pixel_radius
  let subpixels := get_subpixels_in_rectangle W H S b.1 b.2.1 b.2.2.1 b.2.2.2
  center_subpixel W H S ci cj ck ::
    subpixels.filter (fun x =>
      decide (¬ (x.1 = ci ∧ x.2.1 = cj ∧ x.2.2.1 = ck) ∧
        euclidean_subpixel_distance S ci cj ck x.1 x.2.1 x.2.2.1 ≤ (maxd : ℝ)))

/-- `Planisphere::get_subpixels_by_rectangular_distance` (Chebyshev
method, the live version): per-axis pixel radii from the center's
latitude, and *no* distance filter — the
`if chebyshev_distance <= max_subpixel_distance` check is commented out
in the source, so every non-center candidate of the bounding rectangle
is pushed. -/
noncomputable def get_subpixels_by_rectangular_distance (W H S ci cj ck maxd : ℕ) :
    List Subpix :=
  let latitude := (subpixel_to_geo W H S ci cj ck).2
  let pixel_radius_y := maxd / S + 1
  let pixel_radius_x := maxd / get_lon_subdivisons S latitude + 1
  let b := selection_bounds H ci cj pixel_radius_x pixel_radius_y
  let subpixels := get_subpixels_in_rectangle W H S b.1 b.2.1 b.2.2.1 b.2.2.2
  center_subpixel W H S ci cj ck ::
    subpixels.filter (fun x =>
      decide (¬ (x.1 = ci ∧ x.2.1 = cj ∧ x.2.2.1 = ck)))

/-- `DistanceMethod`: the three selection metrics. -/
inductive DistanceMethod : Type where
  | Manhattan : DistanceMethod
  | Euclidean : DistanceMethod
  | Chebyshev : DistanceMethod

/-- `Planisphere::get_subpixels_by_distance_method`: dispatch on the
metric. -/
noncomputable def get_subpixels_by_distance_method
    (W H S ci cj ck maxd : ℕ) (method : DistanceMethod) : List Subpix :=
  match method with
  | DistanceMethod.Manhattan => get_subpixels_by_distance W H S ci cj ck maxd
  | DistanceMethod.Euclidean => get_subpixels_by_circular_distance W H S ci cj ck maxd
  | DistanceMethod.Chebyshev => get_subpixels_by_rectangular_distance W H S ci cj ck maxd

/-- Every element produced by `get_subpixels_in_rectangle` is a valid
grid address with its own corners: `i < W` (after the wrap), `j ≤ max_j`,
`k = sub_i * S + sub_j` with `sub_j < S` and `sub_i` below the row's
latitude-corrected subdivision count. -/
theorem mem_rectangle_valid {W H S a b c d : ℕ} (hW : 0 < W) (hS : 0 < S)
    {x : Subpix} (hx : x ∈ get_subpixels_in_rectangle W H S a b c d) :
    x.1 < W ∧ c ≤ x.2.1 ∧ x.2.1 ≤ d ∧
    x.2.2.1 / S < get_lon_subdivisons S (latitude_at_pixel H x.2.1) ∧
    x.2.2.1 % S < S ∧
    x = (x.1, x.2.1, x.2.2.1, get_subpixel_corners W H S x.1 x.2.1 x.2.2.1) := by
  unfold get_subpixels_in_rectangle at hx
  simp only [List.mem_flatMap, List.mem_map, List.mem_range] at hx
  obtain ⟨ii, hii, j, hj, si, hsi, sj, hsj, hxeq⟩ := hx
  have hjmem : c ≤ j ∧ j ≤ d := by
    unfold rangeIncl at hj
    rw [List.mem_range'_1] at hj
    omega
  have hdiv : (si * S + sj) / S = si := by
    rw [Nat.mul_comm si S, Nat.mul_add_div hS, Nat.div_eq_of_lt hsj, Nat.add_zero]
  have hmod : (si * S + sj) % S = sj := by
    rw [Nat.mul_comm si S, Nat.mul_add_mod, Nat.mod_eq_of_lt hsj]
  subst hxeq
  refine ⟨?_, hjmem.1, hjmem.2, ?_, ?_, rfl⟩
  · by_cases hcase : W ≤ ii
    · simp only [if_pos hcase]
      exact Nat.mod_lt _ hW
    · simp only [if_neg hcase]
      omega
  · simpa [hdiv] using hsi
  · simpa [hmod] using hsj

/-- Conversely, concrete subpixels of in-range pixels belong to the
rectangle list. -/
theorem rectangle_mem_of_bounds {W H S a b c d : ℕ} (i j si sj : ℕ)
    (hia : a ≤ i) (hib : i ≤ b) (hiW : i < W)
    (hjc : c ≤ j) (hjd : j ≤ d)
    (hsi : si < get_lon_subdivisons S (latitude_at_pixel H j)) (hsj : sj < S) :
    (i, j, si * S + sj, get_subpixel_corners W H S i j (si * S + sj)) ∈
      get_subpixels_in_rectangle W H S a b c d := by
  unfold get_subpixels_in_rectangle
  simp only [List.mem_flatMap, List.mem_map, List.mem_range]
  refine ⟨i, ?_, j, ?_, si, hsi, sj, hsj, ?_⟩
  · unfold rangeIncl
    rw [List.mem_range'_1]
    omega
  · unfold rangeIncl
    rw [List.mem_range'_1]
    omega
  · simp only [if_neg (Nat.not_le.mpr hiW)]

/-- **C2.**  The rectangular (Chebyshev) selector never applies its
distance threshold: every subpixel of the bounding rectangle it computes
is in the returned region (the center as head, everything else through
the unfiltered push). -/
theorem c2_chebyshev_returns_whole_rectangle
    (W H S ci cj ck maxd prx pry : ℕ) (hW : 0 < W) (hS : 0 < S)
    (hprx : prx = maxd / get_lon_subdivisons S (subpixel_to_geo W H S ci cj ck).2 + 1)
    (hpry : pry = maxd / S + 1)
    (x : Subpix)
    (hx : x ∈ get_subpixels_in_rectangle W H S
      (selection_bounds H ci cj prx pry).1
      (selection_bounds H ci cj prx pry).2.1
      (selection_bounds H ci cj prx pry).2.2.1
      (selection_bounds H ci cj prx pry).2.2.2) :
    x ∈ get_subpixels_by_rectangular_distance W H S ci cj ck maxd := by
  subst hprx hpry
  have hshape := (mem_rectangle_valid hW hS hx).2.2.2.2.2
  unfold get_subpixels_by_rectangular_distance
  by_cases hctr : x.1 = ci ∧ x.2.1 = cj ∧ x.2.2.1 = ck
  · -- the candidate *is* the center: it is the head of the result
    obtain ⟨h1, h2, h3⟩ := hctr
    rw [hshape, h1, h2, h3]
    exact List.mem_cons_self _ _
  · -- otherwise it survives the (vacuous) filter
    apply List.mem_cons_of_mem
    rw [List.mem_filter]
    refine ⟨hx, ?_⟩
    simp only [decide_eq_true_eq]
    exact hctr

/-- Witness for C2 with `W = 2`, `H = 1`, `S = 1`, center `(0,0,0)`,
`maxd = 0`: the subpixel `(1, 0, 0)` of the bounding rectangle is
returned. -/
theorem c2_chebyshev_returns_whole_rectangle_witness :
    (0 : ℕ) < 2 ∧ (0 : ℕ) < 1 ∧
    (1 : ℕ) = 0 / get_lon_subdivisons 1 (subpixel_to_geo 2 1 1 0 0 0).2 + 1 ∧
    (1 : ℕ) = 0 / 1 + 1 ∧
    (1, 0, 0 * 1 + 0, get_subpixel_corners 2 1 1 1 0 (0 * 1 + 0)) ∈
      get_subpixels_by_rectangular_distance 2 1 1 0 0 0 0 := by
  refine ⟨by norm_num, by norm_num, by simp, by norm_num, ?_⟩
  refine c2_chebyshev_returns_whole_rectangle 2 1 1 0 0 0 0 1 1
    (by norm_num) (by norm_num) (by simp) (by norm_num) _ ?_
  apply rectangle_mem_of_bounds 1 0 0 0
  · simp [selection_bounds]
  · simp [selection_bounds]
  · norm_num
  · simp [selection_bounds]
  · simp [selection_bounds]
  · rw [get_lon_subdivisons_one]
    norm_num
  · norm_num

/-- Any element accepted by a filter whose predicate includes
"not the center address" has a triple different from the center's. -/
theorem count_center_in_filtered (ci cj ck : ℕ) (l : List Subpix)
    (p : Subpix → Bool)
    (hp : ∀ x : Subpix, p x = true → ¬ (x.1 = ci ∧ x.2.1 = cj ∧ x.2.2.1 = ck))
    (c : Subpix) (hc : tripleOf c = (ci, cj, ck)) :
    ((c :: l.filter p).map tripleOf).count (ci, cj, ck) = 1 := by
  have hzero : ((l.filter p).map tripleOf).count (ci, cj, ck) = 0 := by
    rw [List.count_eq_zero]
    intro hmem
    rw [List.mem_map] at hmem
    obtain ⟨y, hy, hyeq⟩ := hmem
    rw [List.mem_filter] at hy
    apply hp y hy.2
    unfold tripleOf at hyeq
    exact ⟨congrArg Prod.fst hyeq, by
      have := congrArg (fun q : ℕ × ℕ × ℕ => q.2.1) hyeq
      simpa using this, by
      have := congrArg (fun q : ℕ × ℕ × ℕ => q.2.2) hyeq
      simpa using this⟩
  rw [List.map_cons, List.count_cons, hc, hzero]
  simp

/-- **C5.**  For every grid, center address, distance bound and metric,
the selection result has the center element as its first entry, and the
center address occurs exactly once among the returned addresses. -/
theorem c5_center_first_and_unique (W H S ci cj ck maxd : ℕ)
    (m : DistanceMethod) :
    (get_subpixels_by_distance_method W H S ci cj ck maxd m).head? =
      some (center_subpixel W H S ci cj ck) ∧
    ((get_subpixels_by_distance_method W H S ci cj ck maxd m).map
      tripleOf).count (ci, cj, ck) = 1 := by
  cases m
  case Manhattan =>
    unfold get_subpixels_by_distance_method get_subpixels_by_distance
    refine ⟨rfl, ?_⟩
    apply count_center_in_filtered
    · intro x hx
      have := of_decide_eq_true hx
      exact this.1
    · rfl
  case Euclidean =>
    unfold get_subpixels_by_distance_method get_subpixels_by_circular_distance
    refine ⟨rfl, ?_⟩
    apply count_center_in_filtered
    · intro x hx
      have := of_decide_eq_true hx
      exact this.1
    · rfl
  case Chebyshev =>
    unfold get_subpixels_by_distance_method get_subpixels_by_rectangular_distance
    refine ⟨rfl, ?_⟩
    apply count_center_in_filtered
    · intro x hx
      exact of_decide_eq_true hx
    · rfl

/-- **C10.**  For a valid center address, every address returned by any
of the three selectors is a valid grid address: `i < width_pixels`,
`j < height_pixels`, and `k = sub_i * S + sub_j` with `sub_j < S` and
`sub_i` strictly below the latitude-corrected subdivision count of row
`j`. -/
theorem c10_selection_addresses_valid (W H S ci cj ck maxd : ℕ)
    (m : DistanceMethod) (hW : 0 < W) (hH : 0 < H) (hS : 0 < S)
    (hci : ci < W) (hcj : cj < H)
    (hck : ck / S < get_lon_subdivisons S (latitude_at_pixel H cj)) :
    ∀ x ∈ get_subpixels_by_distance_method W H S ci cj ck maxd m,
      x.1 < W ∧ x.2.1 < H ∧
      x.2.2.1 = x.2.2.1 / S * S + x.2.2.1 % S ∧
      x.2.2.1 % S < S ∧
      x.2.2.1 / S < get_lon_subdivisons S (latitude_at_pixel H x.2.1) := by
  have hcenter : ∀ y : Subpix, y = center_subpixel W H S ci cj ck →
      y.1 < W ∧ y.2.1 < H ∧
      y.2.2.1 = y.2.2.1 / S * S + y.2.2.1 % S ∧
      y.2.2.1 % S < S ∧
      y.2.2.1 / S < get_lon_subdivisons S (latitude_at_pixel H y.2.1) := by
    intro y hy
    subst hy
    exact ⟨hci, hcj, (Nat.div_add_mod' ck S).symm, Nat.mod_lt _ hS, hck⟩
  cases m
  case Manhattan =>
    unfold get_subpixels_by_distance_method get_subpixels_by_distance
    intro x hx
    rcases List.mem_cons.1 hx with hx | hx
    · exact hcenter x hx
    · rw [List.mem_filter] at hx
      have hv := mem_rectangle_valid hW hS hx.1
      refine ⟨hv.1, ?_, (Nat.div_add_mod' _ S).symm, hv.2.2.2.2.1, hv.2.2.2.1⟩
      have hd := hv.2.2.1
      simp only [selection_bounds] at hd
      omega
  case Euclidean =>
    unfold get_subpixels_by_distance_method get_subpixels_by_circular_distance
    intro x hx
    rcases List.mem_cons.1 hx with hx | hx
    · exact hcenter x hx
    · rw [List.mem_filter] at hx
      have hv := mem_rectangle_valid hW hS hx.1
      refine ⟨hv.1, ?_, (Nat.div_add_mod' _ S).symm, hv.2.2.2.2.1, hv.2.2.2.1⟩
      have hd := hv.2.2.1
      simp only [selection_bounds] at hd
      omega
  case Chebyshev =>
    unfold get_subpixels_by_distance_method get_subpixels_by_rectangular_distance
    intro x hx
    rcases List.mem_cons.1 hx with hx | hx
    · exact hcenter x hx
    · rw [List.mem_filter] at hx
      have hv := mem_rectangle_valid hW hS hx.1
      refine ⟨hv.1, ?_, (Nat.div_add_mod' _ S).symm, hv.2.2.2.2.1, hv.2.2.2.1⟩
      have hd := hv.2.2.1
      simp only [selection_bounds] at hd
      omega

/-- Witness for C10 with `W = 2`, `H = 1`, `S = 1`, center `(0, 0, 0)`,
`maxd = 0`, Chebyshev metric. -/
theorem c10_selection_addresses_valid_witness :
    (0 : ℕ) < 2 ∧ (0 : ℕ) < 1 ∧ (0 : ℕ) < 1 ∧ (0 : ℕ) < 2 ∧ (0 : ℕ) < 1 ∧
    (0 : ℕ) / 1 < get_lon_subdivisons 1 (latitude_at_pixel 1 0) ∧
    ∀ x ∈ get_subpixels_by_distance_method 2 1 1 0 0 0 0
        DistanceMethod.Chebyshev,
      x.1 < 2 ∧ x.2.1 < 1 ∧
      x.2.2.1 = x.2.2.1 / 1 * 1 + x.2.2.1 % 1 ∧
      x.2.2.1 % 1 < 1 ∧
      x.2.2.1 / 1 < get_lon_subdivisons 1 (latitude_at_pixel 1 x.2.1) := by
  have hck : (0 : ℕ) / 1 < get_lon_subdivisons 1 (latitude_at_pixel 1 0) := by
    rw [get_lon_subdivisons_one]
    norm_num
  exact ⟨by norm_num, by norm_num, by norm_num, by norm_num, by norm_num, hck,
    c10_selection_addresses_valid 2 1 1 0 0 0 0 DistanceMethod.Chebyshev
      (by norm_num) (by norm_num) (by norm_num) (by norm_num) (by norm_num) hck⟩

/-- **C4 (amended).**  The Euclidean selector only returns cells whose
continuous-coordinate Euclidean distance from the center is at most
`max_subpixel_distance`.  The Manhattan selector, however, filters by
the *pixel-level* Manhattan distance scaled by `S`
(`(dist_i + dist_j) * S ≤ max_subpixel_distance`), not by the per-axis
subpixel-step accumulation, which is computed into unused bindings. -/
theorem c4_euclidean_filtered_manhattan_pixel_level (W H S ci cj ck maxd : ℕ) :
    (∀ x ∈ get_subpixels_by_circular_distance W H S ci cj ck maxd,
      euclidean_subpixel_distance S ci cj ck x.1 x.2.1 x.2.2.1 ≤ (maxd : ℝ)) ∧
    (∀ x ∈ get_subpixels_by_distance W H S ci cj ck maxd,
      (natDistAbs x.1 ci + natDistAbs x.2.1 cj) * S ≤ maxd) := by
  constructor
  · intro x hx
    unfold get_subpixels_by_circular_distance at hx
    rcases List.mem_cons.1 hx with hx | hx
    · rw [hx]
      unfold center_subpixel euclidean_subpixel_distance
      simp only [sub_self]
      rw [show (0 : ℝ) * 0 + 0 * 0 = 0 by ring, Real.sqrt_zero]
      exact Nat.cast_nonneg maxd
    · rw [List.mem_filter] at hx
      exact (of_decide_eq_true hx.2).2
  · intro x hx
    unfold get_subpixels_by_distance at hx
    rcases List.mem_cons.1 hx with hx | hx
    · rw [hx]
      unfold center_subpixel natDistAbs
      simp
    · rw [List.mem_filter] at hx
      exact (of_decide_eq_true hx.2).2

/-- Witness for C4: the center element of a concrete Euclidean selection
satisfies the distance bound. -/
theorem c4_euclidean_filtered_manhattan_pixel_level_witness :
    center_subpixel 2 1 1 0 0 0 ∈ get_subpixels_by_circular_distance 2 1 1 0 0 0 0 ∧
    euclidean_subpixel_distance 1 0 0 0 (center_subpixel 2 1 1 0 0 0).1
      (center_subpixel 2 1 1 0 0 0).2.1 (center_subpixel 2 1 1 0 0 0).2.2.1 ≤
      ((0 : ℕ) : ℝ) := by
  have hmem : center_subpixel 2 1 1 0 0 0 ∈
      get_subpixels_by_circular_distance 2 1 1 0 0 0 0 := by
    unfold get_subpixels_by_circular_distance
    exact List.mem_cons_self _ _
  exact ⟨hmem, (c4_euclidean_filtered_manhattan_pixel_level 2 1 1 0 0 0 0).1 _ hmem⟩

/-- **C4 counterexample.**  With `W = 2`, `H = 1`, `S = 2`, center
`(0,0,0)` and `max_subpixel_distance = 0`, the Manhattan selector
returns the same-pixel subpixel `(0,0,1)` (pixel-level distance `0`),
although its per-axis subpixel-step accumulation — the metric named by
the claim — is `1 > 0`. -/
theorem c4_manhattan_counterexample :
    (0, 0, 1) ∈ (get_subpixels_by_distance 2 1 2 0 0 0 0).map tripleOf ∧
    manhattan_subpixel_steps 2 0 0 0 0 0 1 = 1 ∧
    ¬ (manhattan_subpixel_steps 2 0 0 0 0 0 1 ≤ 0) := by
  have hlat : latitude_at_pixel 1 0 = -90 := by
    unfold latitude_at_pixel
    norm_num
  have hsub : (0 : ℕ) < get_lon_subdivisons 2 (latitude_at_pixel 1 0) := by
    rw [hlat, get_lon_subdivisons_neg90]
    norm_num
  have hmem : (0, 0, 0 * 2 + 1, get_subpixel_corners 2 1 2 0 0 (0 * 2 + 1)) ∈
      get_subpixels_by_distance 2 1 2 0 0 0 0 := by
    unfold get_subpixels_by_distance
    apply List.mem_cons_of_mem
    rw [List.mem_filter]
    refine ⟨?_, by decide⟩
    have hrect := rectangle_mem_of_bounds (W := 2) (H := 1) (S := 2)
      (a := (selection_bounds 1 0 0 (0 / 2 + 1) (0 / 2 + 1)).1)
      (b := (selection_bounds 1 0 0 (0 / 2 + 1) (0 / 2 + 1)).2.1)
      (c := (selection_bounds 1 0 0 (0 / 2 + 1) (0 / 2 + 1)).2.2.1)
      (d := (selection_bounds 1 0 0 (0 / 2 + 1) (0 / 2 + 1)).2.2.2)
      0 0 0 1
      (by simp [selection_bounds]) (by simp [selection_bounds]) (by norm_num)
      (by simp [selection_bounds]) (by simp [selection_bounds])
      hsub (by norm_num)
    exact hrect
  refine ⟨?_, by decide, by decide⟩
  rw [List.mem_map]
  exact ⟨_, hmem, by norm_num [tripleOf]⟩

/-- `Planisphere::geo_to_gnomonic`: forward gnomonic projection with the
angular-distance cosine clamped below at `0.01` (`cos_c.max(0.01)`).
`radius` is the planisphere's `radius` field. -/
noncomputable def geo_to_gnomonic (radius lon lat center_lon center_lat : ℝ) :
    ℝ × ℝ :=
  let lon_rad := toRad lon
  let lat_rad := toRad lat
  let center_lon_rad := toRad center_lon
  let center_lat_rad := toRad center_lat
  let cos_c := Real.sin lat_rad * Real.sin center_lat_rad +
    Real.cos lat_rad * Real.cos center_lat_rad * Real.cos (lon_rad - center_lon_rad)
  let cos_c_clamped := max cos_c 0.01
  (radius * Real.cos lat_rad * Real.sin (lon_rad - center_lon_rad) / cos_c_clamped,
   radius * (Real.sin lat_rad * Real.cos center_lat_rad -
     Real.cos lat_rad * Real.sin center_lat_rad *
       Real.cos (lon_rad - center_lon_rad)) / cos_c_clamped)

/-- A terrain vertex `[x as f32, 0.0, y as f32]` from one projected
corner of a subpixel quad. -/
noncomputable def terrain_vertex (radius clon clat : ℝ) (c : ℝ × ℝ) :
    ℝ × ℝ × ℝ :=
  let p := geo_to_gnomonic radius c.1 c.2 clon clat
  (p.1, 0, p.2)

/-- A default `Subpix`, used only as the `getD` fallback. -/
def defaultSubpix : Subpix := (0, 0, 0, ((0, 0), (0, 0), (0, 0), (0, 0)))

/-- The vertex/index/triangle-map emission loop of
`create_terrain_gnomonic_with_distance_method` (src/terrain.rs): per
subpixel, 4 projected vertices, the 6 indices
`[vi, vi+1, vi+2, vi, vi+2, vi+3]`, and the cell address pushed twice
into `triangle_to_subpixel`; `vi` is the running `vertex_index`. -/
noncomputable def terrain_mesh_loop (radius clon clat : ℝ) :
    ℕ → List Subpix → List (ℝ × ℝ × ℝ) × List ℕ × List (ℕ × ℕ × ℕ)
  | _, [] => ([], [], [])
  | vi, (i, j, k, corners) :: rest =>
    let r := terrain_mesh_loop radius clon clat (vi + 4) rest
    (terrain_vertex radius clon clat corners.1 ::
       terrain_vertex radius clon clat corners.2.1 ::
       terrain_vertex radius clon clat corners.2.2.1 ::
       terrain_vertex radius clon clat corners.2.2.2 :: r.1,
     vi :: (vi + 1) :: (vi + 2) :: vi :: (vi + 2) :: (vi + 3) :: r.2.1,
     (i, j, k) :: (i, j, k) :: r.2.2)

/-- The whole mesh build over a selected region, starting at
`vertex_index = 0`. -/
noncomputable def create_terrain_gnomonic_mesh (radius clon clat : ℝ)
    (subpixels : List Subpix) :
    List (ℝ × ℝ × ℝ) × List ℕ × List (ℕ × ℕ × ℕ) :=
  terrain_mesh_loop radius clon clat 0 subpixels

theorem terrain_mesh_loop_lengths (radius clon clat : ℝ) (vi : ℕ)
    (l : List Subpix) :
    (terrain_mesh_loop radius clon clat vi l).1.length = 4 * l.length ∧
    (terrain_mesh_loop radius clon clat vi l).2.1.length = 6 * l.length ∧
    (terrain_mesh_loop radius clon clat vi l).2.2.length = 2 * l.length := by
  induction l generalizing vi with
  | nil => simp [terrain_mesh_loop]
  | cons hd tl ih =>
    obtain ⟨i, j, k, c⟩ := hd
    have := ih (vi + 4)
    simp only [terrain_mesh_loop, List.length_cons]
    refine ⟨?_, ?_, ?_⟩ <;> simp [this.1, this.2.1, this.2.2] <;> ring

theorem terrain_mesh_loop_triangles (radius clon clat : ℝ) (vi : ℕ)
    (l : List Subpix) (t : ℕ) (ht : t < 2 * l.length) :
    (terrain_mesh_loop radius clon clat vi l).2.2.getD t (0, 0, 0) =
      tripleOf (l.getD (t / 2) defaultSubpix) ∧
    (terrain_mesh_loop radius clon clat vi l).2.1.getD (3 * t) 0 =
      vi + 4 * (t / 2) ∧
    (terrain_mesh_loop radius clon clat vi l).2.1.getD (3 * t + 1) 0 =
      vi + 4 * (t / 2) + (if t % 2 = 0 then 1 else 2) ∧
    (terrain_mesh_loop radius clon clat vi l).2.1.getD (3 * t + 2) 0 =
      vi + 4 * (t / 2) + (if t % 2 = 0 then 2 else 3) := by
  induction l generalizing vi t with
  | nil => simp at ht
  | cons hd tl ih =>
    obtain ⟨i, j, k, c⟩ := hd
    match t with
    | 0 =>
      simp [terrain_mesh_loop, tripleOf, defaultSubpix]
    | 1 =>
      simp [terrain_mesh_loop, tripleOf, defaultSubpix]
    | (n + 2) =>
      have hn : n < 2 * tl.length := by
        simp only [List.length_cons] at ht
        omega
      have hrec := ih (vi + 4) n hn
      have hdiv : (n + 2) / 2 = n / 2 + 1 := by omega
      have hmod : (n + 2) % 2 = n % 2 := by omega
      have h3 : 3 * (n + 2) = 3 * n + 6 := by ring
      have h31 : 3 * (n + 2) + 1 = 3 * n + 6 + 1 := by ring
      have h32 : 3 * (n + 2) + 2 = 3 * n + 6 + 2 := by ring
      simp only [terrain_mesh_loop, h3, h31, h32, hdiv, hmod,
        List.getD_cons_succ, List.getD_cons_zero]
      refine ⟨hrec.1, ?_, ?_, ?_⟩
      · rw [hrec.2.1]; ring
      · rw [hrec.2.2.1]; ring_nf
      · rw [hrec.2.2.2]; ring_nf

/-- **C1.**  The mesh builder emits exactly 4 vertices and 6 triangle
indices per region cell and pushes each cell's address exactly twice
into the triangle-to-cell map, in emission order: for every region,
`vertices.len = 4·n`, `indices.len = 6·n`, `triangle_cell_map.len =
2·n`, the `t`-th triangle's map entry is the address of cell `t / 2` and
its three indices are the corner indices of quad `t / 2`; a 1-cell
region yields exactly 4 vertices, 6 indices, and a map holding that
cell's address twice. -/
theorem c1_terrain_mesh_counts_and_map (radius clon clat : ℝ)
    (cells : List Subpix) :
    (create_terrain_gnomonic_mesh radius clon clat cells).1.length =
      4 * cells.length ∧
    (create_terrain_gnomonic_mesh radius clon clat cells).2.1.length =
      6 * cells.length ∧
    (create_terrain_gnomonic_mesh radius clon clat cells).2.2.length =
      2 * cells.length ∧
    (∀ t, t < 2 * cells.length →
      (create_terrain_gnomonic_mesh radius clon clat cells).2.2.getD t (0, 0, 0) =
        tripleOf (cells.getD (t / 2) defaultSubpix) ∧
      (create_terrain_gnomonic_mesh radius clon clat cells).2.1.getD (3 * t) 0 =
        4 * (t / 2) ∧
      (create_terrain_gnomonic_mesh radius clon clat cells).2.1.getD (3 * t + 1) 0 =
        4 * (t / 2) + (if t % 2 = 0 then 1 else 2) ∧
      (create_terrain_gnomonic_mesh radius clon clat cells).2.1.getD (3 * t + 2) 0 =
        4 * (t / 2) + (if t % 2 = 0 then 2 else 3)) ∧
    (∀ c : Subpix,
      (create_terrain_gnomonic_mesh radius clon clat [c]).1.length = 4 ∧
      (create_terrain_gnomonic_mesh radius clon clat [c]).2.1.length = 6 ∧
      (create_terrain_gnomonic_mesh radius clon clat [c]).2.2 =
        [tripleOf c, tripleOf c]) := by
  have hl := terrain_mesh_loop_lengths radius clon clat 0 cells
  refine ⟨hl.1, hl.2.1, hl.2.2, ?_, ?_⟩
  · intro t ht
    have := terrain_mesh_loop_triangles radius clon clat 0 cells t ht
    unfold create_terrain_gnomonic_mesh
    simpa using this
  · intro c
    obtain ⟨i, j, k, co⟩ := c
    have h1 := terrain_mesh_loop_lengths radius clon clat 0 [(i, j, k, co)]
    refine ⟨by simpa using h1.1, by simpa using h1.2.1, ?_⟩
    unfold create_terrain_gnomonic_mesh
    simp [terrain_mesh_loop, tripleOf]

/-- Witness for C1 at the singleton region `[defaultSubpix]`, `t = 0`. -/
theorem c1_terrain_mesh_counts_and_map_witness :
    0 < 2 * ([defaultSubpix] : List Subpix).length ∧
    (create_terrain_gnomonic_mesh 1 0 0 [defaultSubpix]).2.2.getD 0 (0, 0, 0) =
      tripleOf (([defaultSubpix] : List Subpix).getD (0 / 2) defaultSubpix) :=
  ⟨by simp, ((c1_terrain_mesh_counts_and_map 1 0 0 [defaultSubpix]).2.2.2.1
      0 (by simp)).1⟩

/-- **C9.**  The forward gnomonic projection divides only by the
angular-distance cosine clamped to at least `0.01`, and its outputs are
always finite: `|x| ≤ 100 · |radius|` and `|y| ≤ 200 · |radius|`, even
for inputs antipodal to the projection center. -/
theorem c9_gnomonic_forward_clamped_and_finite
    (radius lon lat center_lon center_lat : ℝ) :
    ∃ d : ℝ, (0.01 : ℝ) ≤ d ∧
      (geo_to_gnomonic radius lon lat center_lon center_lat).1 =
        radius * Real.cos (toRad lat) *
          Real.sin (toRad lon - toRad center_lon) / d ∧
      (geo_to_gnomonic radius lon lat center_lon center_lat).2 =
        radius * (Real.sin (toRad lat) * Real.cos (toRad center_lat) -
          Real.cos (toRad lat) * Real.sin (toRad center_lat) *
            Real.cos (toRad lon - toRad center_lon)) / d ∧
      |(geo_to_gnomonic radius lon lat center_lon center_lat).1| ≤
        100 * |radius| ∧
      |(geo_to_gnomonic radius lon lat center_lon center_lat).2| ≤
        200 * |radius| := by
  refine ⟨max (Real.sin (toRad lat) * Real.sin (toRad center_lat) +
      Real.cos (toRad lat) * Real.cos (toRad center_lat) *
        Real.cos (toRad lon - toRad center_lon)) 0.01,
    le_max_right _ _, rfl, rfl, ?_, ?_⟩
  all_goals
    set d : ℝ := max (Real.sin (toRad lat) * Real.sin (toRad center_lat) +
      Real.cos (toRad lat) * Real.cos (toRad center_lat) *
        Real.cos (toRad lon - toRad center_lon)) 0.01 with hd
  all_goals have hd1 : (0.01 : ℝ) ≤ d := le_max_right _ _
  all_goals have hdpos : (0 : ℝ) < d := lt_of_lt_of_le (by norm_num) hd1
  all_goals have hdinv : d⁻¹ ≤ 100 :=
    le_trans (inv_anti₀ (by norm_num) hd1) (by norm_num)
  · unfold geo_to_gnomonic
    simp only [← hd]
    rw [div_eq_mul_inv, abs_mul]
    have h1 : |radius * Real.cos (toRad lat) *
        Real.sin (toRad lon - toRad center_lon)| ≤ |radius| := by
      rw [abs_mul, abs_mul]
      calc |radius| * |Real.cos (toRad lat)| * |Real.sin (toRad lon - toRad center_lon)|
          ≤ |radius| * 1 * 1 := by
            apply mul_le_mul
            · apply mul_le_mul_of_nonneg_left (Real.abs_cos_le_one _) (abs_nonneg _)
            · exact Real.abs_sin_le_one _
            · exact abs_nonneg _
            · positivity
        _ = |radius| := by ring
    have h2 : |d⁻¹| = d⁻¹ := abs_of_pos (by positivity)
    rw [h2]
    calc |radius * Real.cos (toRad lat) * Real.sin (toRad lon - toRad center_lon)| * d⁻¹
        ≤ |radius| * 100 := by
          apply mul_le_mul h1 hdinv (by positivity) (abs_nonneg _)
      _ = 100 * |radius| := by ring
  · unfold geo_to_gnomonic
    simp only [← hd]
    rw [div_eq_mul_inv, abs_mul]
    have h1 : |radius * (Real.sin (toRad lat) * Real.cos (toRad center_lat) -
        Real.cos (toRad lat) * Real.sin (toRad center_lat) *
          Real.cos (toRad lon - toRad center_lon))| ≤ |radius| * 2 := by
      rw [abs_mul]
      apply mul_le_mul_of_nonneg_left _ (abs_nonneg _)
      calc |Real.sin (toRad lat) * Real.cos (toRad center_lat) -
            Real.cos (toRad lat) * Real.sin (toRad center_lat) *
              Real.cos (toRad lon - toRad center_lon)|
          ≤ |Real.sin (toRad lat) * Real.cos (toRad center_lat)| +
            |Real.cos (toRad lat) * Real.sin (toRad center_lat) *
              Real.cos (toRad lon - toRad center_lon)| := abs_sub _ _
        _ ≤ 1 + 1 := by
            apply add_le_add
            · rw [abs_mul]
              calc |Real.sin (toRad lat)| * |Real.cos (toRad center_lat)|
                  ≤ 1 * 1 := mul_le_mul (Real.abs_sin_le_one _)
                      (Real.abs_cos_le_one _) (abs_nonneg _) (by norm_num)
                _ = 1 := by ring
            · rw [abs_mul, abs_mul]
              calc |Real.cos (toRad lat)| * |Real.sin (toRad center_lat)| *
                    |Real.cos (toRad lon - toRad center_lon)|
                  ≤ 1 * 1 * 1 := by
                    apply mul_le_mul _ (Real.abs_cos_le_one _) (abs_nonneg _)
                      (by norm_num)
                    exact mul_le_mul (Real.abs_cos_le_one _)
                      (Real.abs_sin_le_one _) (abs_nonneg _) (by norm_num)
                _ = 1 := by ring
        _ = 2 := by norm_num
    have h2 : |d⁻¹| = d⁻¹ := abs_of_pos (by positivity)
    rw [h2]
    calc |radius * (Real.sin (toRad lat) * Real.cos (toRad center_lat) -
          Real.cos (toRad lat) * Real.sin (toRad center_lat) *
            Real.cos (toRad lon - toRad center_lon))| * d⁻¹
        ≤ (|radius| * 2) * 100 := by
          apply mul_le_mul h1 hdinv (by positivity) (by positivity)
      _ = 200 * |radius| := by ring

/-- `gnomonic_to_geo_helper`: inverse gnomonic projection.  The Rust
function returns `(f64::NAN, f64::NAN)` for out-of-domain results; here
`none` models that NaN pair (`is_finite` checks of the source are
vacuous over `ℝ` and the remaining range checks are kept verbatim).
`1e-10` thresholds are written `1 / 10 ^ 10`. -/
noncomputable def gnomonic_to_geo_helper
    (x y center_lon center_lat planet_radius : ℝ) : Option (ℝ × ℝ) :=
  let center_lon_rad := toRad center_lon
  let center_lat_rad := toRad center_lat
  let distance_from_center := Real.sqrt (x * x + y * y)
  if distance_from_center < 1 / 10 ^ 10 then some (center_lon, center_lat)
  else
    let x_norm := x / planet_radius
    let y_norm := y / planet_radius
    let rho := Real.sqrt (x_norm * x_norm + y_norm * y_norm)
    if 10 < rho then none
    else
      let c := Real.arctan rho
      let cos_c := Real.cos c
      let sin_c := Real.sin c
      let lat_numerator := cos_c * Real.sin center_lat_rad +
        (y_norm * sin_c * Real.cos center_lat_rad) / rho
      let lat_numerator_clamped := min (max lat_numerator (-1)) 1
      let lat_rad := Real.arcsin lat_numerator_clamped
      let lon_rad :=
        if |Real.cos center_lat_rad| < 1 / 10 ^ 10 then center_lon_rad
        else
          let denominator := rho * Real.cos center_lat_rad * cos_c -
            y_norm * Real.sin center_lat_rad * sin_c
          if |denominator| < 1 / 10 ^ 10 then center_lon_rad
          else center_lon_rad + Real.arctan (x_norm * sin_c / denominator)
      let lon_degrees := lon_rad * (180 / Real.pi)
      let lat_degrees := lat_rad * (180 / Real.pi)
      if -90 ≤ lat_degrees ∧ lat_degrees ≤ 90 ∧
         -180 ≤ lon_degrees ∧ lon_degrees ≤ 180 then
        some (lon_degrees, lat_degrees)
      else none

/-- **C8 (amended).**  Away from the tiny-distance shortcut
(`sqrt (x² + y²) ≥ 1e-10`), the inverse projection returns the NaN pair
whenever the normalized distance `rho` exceeds `10`, and any coordinate
pair it does return lies inside `[-180, 180] × [-90, 90]`; it never
fails in any other way (the function is total). -/
theorem c8_inverse_projection_domain (x y center_lon center_lat planet_radius : ℝ)
    (h : ¬ (Real.sqrt (x * x + y * y) < 1 / 10 ^ 10)) :
    (10 < Real.sqrt ((x / planet_radius) * (x / planet_radius) +
        (y / planet_radius) * (y / planet_radius)) →
      gnomonic_to_geo_helper x y center_lon center_lat planet_radius = none) ∧
    (∀ p : ℝ × ℝ,
      gnomonic_to_geo_helper x y center_lon center_lat planet_radius = some p →
      -180 ≤ p.1 ∧ p.1 ≤ 180 ∧ -90 ≤ p.2 ∧ p.2 ≤ 90) := by
  constructor
  · intro hrho
    unfold gnomonic_to_geo_helper
    rw [if_neg h, if_pos hrho]
  · intro p hp
    unfold gnomonic_to_geo_helper at hp
    rw [if_neg h] at hp
    by_cases hrho : 10 < Real.sqrt ((x / planet_radius) * (x / planet_radius) +
        (y / planet_radius) * (y / planet_radius))
    · rw [if_pos hrho] at hp
      exact absurd hp (by simp)
    · rw [if_neg hrho] at hp
      split at hp
      all_goals try dsimp only at hp
      all_goals try split at hp
      all_goals try dsimp only at hp
      all_goals try split at hp
      all_goals try exact Option.noConfusion hp
      all_goals simp only [Option.some.injEq] at hp
      all_goals subst hp
      all_goals tauto

/-- Witness for C8 at `(x, y) = (1, 0)`, center `(0, 0)`, radius `1`. -/
theorem c8_inverse_projection_domain_witness :
    ¬ (Real.sqrt ((1 : ℝ) * 1 + 0 * 0) < 1 / 10 ^ 10) ∧
    (10 < Real.sqrt (((1 : ℝ) / 1) * ((1 : ℝ) / 1) + ((0 : ℝ) / 1) * ((0 : ℝ) / 1)) →
      gnomonic_to_geo_helper 1 0 0 0 1 = none) := by
  have h : ¬ (Real.sqrt ((1 : ℝ) * 1 + 0 * 0) < 1 / 10 ^ 10) := by
    rw [show ((1 : ℝ) * 1 + 0 * 0) = 1 by norm_num, Real.sqrt_one]
    norm_num
  exact ⟨h, (c8_inverse_projection_domain 1 0 0 0 1 h).1⟩

/-- **C8 counterexample.**  At `(x, y) = (0, 0)` with `center_lon = 500`
the tiny-distance shortcut returns `(500, 0)` unvalidated: the result
falls outside `[-180, 180]`, yet it is not the NaN pair the claim
requires for out-of-bounds outputs. -/
theorem c8_counterexample :
    gnomonic_to_geo_helper 0 0 500 0 1 = some (500, 0) ∧ ¬ ((500 : ℝ) ≤ 180) := by
  constructor
  · unfold gnomonic_to_geo_helper
    rw [if_pos]
    rw [show ((0 : ℝ) * 0 + 0 * 0) = 0 by norm_num, Real.sqrt_zero]
    norm_num
  · norm_num

/-- Unfolded form of `geo_to_subpixel` (definitional). -/
theorem geo_to_subpixel_eq (W H S : ℕ) (lon lat : ℝ) :
    geo_to_subpixel W H S lon lat =
      (⌊(lon + 180) / 360 * (W : ℝ)⌋₊ % W,
       ⌊(lat + 90) / 180 * (H : ℝ)⌋₊ % H,
       (⌊(lon + 180) / 360 * (W : ℝ)⌋₊ % W) % get_lon_subdivisons S lat * S +
         (⌊(lat + 90) / 180 * (H : ℝ)⌋₊ % H) % S) := rfl

/-- Unfolded form of the longitude component of `subpixel_to_geo`
(definitional). -/
theorem subpixel_to_geo_fst (W H S i j k : ℕ) :
    (subpixel_to_geo W H S i j k).1 =
      (i : ℝ) / (W : ℝ) * 360 - 180 +
        ((k / S : ℕ) : ℝ) /
          ((get_lon_subdivisons S ((j : ℝ) / (H : ℝ) * 180 - 90) : ℕ) : ℝ) *
          ((((i : ℝ) + 1) / (W : ℝ) * 360 - 180) -
            ((i : ℝ) / (W : ℝ) * 360 - 180)) := rfl

/-- Unfolded form of the latitude component of `subpixel_to_geo`
(definitional). -/
theorem subpixel_to_geo_snd (W H S i j k : ℕ) :
    (subpixel_to_geo W H S i j k).2 =
      (j : ℝ) / (H : ℝ) * 180 - 90 +
        ((k % S : ℕ) : ℝ) / (S : ℝ) *
          ((((j : ℝ) + 1) / (H : ℝ) * 180 - 90) -
            ((j : ℝ) / (H : ℝ) * 180 - 90)) := rfl

/-- Round-trip bound, stated over the already-extracted pixel indices
`i0`, `j0` (the floors of the normalized coordinates). -/
theorem subpixel_roundtrip_aux (W H S : ℕ) (lon lat : ℝ) (i0 j0 : ℕ)
    (hW : 0 < W) (hH : 0 < H) (hS : 0 < S)
    (hif1 : (i0 : ℝ) ≤ (lon + 180) / 360 * W)
    (hif2 : (lon + 180) / 360 * W < (i0 : ℝ) + 1)
    (hjf1 : (j0 : ℝ) ≤ (lat + 90) / 180 * H)
    (hjf2 : (lat + 90) / 180 * H < (j0 : ℝ) + 1)
    (hmono : get_lon_subdivisons S lat ≤
      get_lon_subdivisons S ((j0 : ℝ) / (H : ℝ) * 180 - 90)) :
    |(subpixel_to_geo W H S i0 j0
        (i0 % get_lon_subdivisons S lat * S + j0 % S)).1 - lon| < 360 / (W : ℝ) ∧
    |(subpixel_to_geo W H S i0 j0
        (i0 % get_lon_subdivisons S lat * S + j0 % S)).2 - lat| < 180 / (H : ℝ) := by
  have hWR : (0 : ℝ) < W := by exact_mod_cast hW
  have hHR : (0 : ℝ) < H := by exact_mod_cast hH
  have hSR : (0 : ℝ) < S := by exact_mod_cast hS
  have hLlat := one_le_get_lon_subdivisons S lat
  set si := i0 % get_lon_subdivisons S lat with hsi
  set sj := j0 % S with hsj
  have hsjS : sj < S := Nat.mod_lt _ hS
  have hsiL : si < get_lon_subdivisons S lat := Nat.mod_lt _ (by omega)
  have hkdiv : (si * S + sj) / S = si := by
    rw [Nat.mul_comm si S, Nat.mul_add_div hS, Nat.div_eq_of_lt hsjS, Nat.add_zero]
  have hkmod : (si * S + sj) % S = sj := by
    rw [Nat.mul_comm si S, Nat.mul_add_mod, Nat.mod_eq_of_lt hsjS]
  rw [subpixel_to_geo_fst, subpixel_to_geo_snd, hkdiv, hkmod]
  set L := get_lon_subdivisons S ((j0 : ℝ) / (H : ℝ) * 180 - 90) with hL
  have hL1 : 1 ≤ L := one_le_get_lon_subdivisons _ _
  have hLR : (1 : ℝ) ≤ (L : ℝ) := by exact_mod_cast hL1
  have hsiL' : si < L := lt_of_lt_of_le hsiL hmono
  have hdlon : (((i0 : ℝ) + 1) / (W : ℝ) * 360 - 180) -
      ((i0 : ℝ) / (W : ℝ) * 360 - 180) = 360 / W := by
    field_simp
    ring
  have hdlat : (((j0 : ℝ) + 1) / (H : ℝ) * 180 - 90) -
      ((j0 : ℝ) / (H : ℝ) * 180 - 90) = 180 / H := by
    field_simp
    ring
  rw [hdlon, hdlat]
  -- corner bounds for longitude
  have hclon1 : (i0 : ℝ) / (W : ℝ) * 360 - 180 ≤ lon := by
    have h1 : (i0 : ℝ) * 360 ≤ (lon + 180) * W := by
      have h := hif1
      rw [div_mul_eq_mul_div, le_div_iff₀ (by norm_num : (0:ℝ) < 360)] at h
      linarith
    rw [sub_le_iff_le_add, div_mul_eq_mul_div, div_le_iff₀ hWR]
    linarith
  have hclon2 : lon < (i0 : ℝ) / (W : ℝ) * 360 - 180 + 360 / W := by
    have h2 : (lon + 180) * W < ((i0 : ℝ) + 1) * 360 := by
      have h := hif2
      rw [div_mul_eq_mul_div, div_lt_iff₀ (by norm_num : (0:ℝ) < 360)] at h
      linarith
    have h3 : (i0 : ℝ) / (W : ℝ) * 360 - 180 + 360 / W =
        ((i0 : ℝ) + 1) * 360 / W - 180 := by
      field_simp
      ring
    rw [h3, lt_sub_iff_add_lt, lt_div_iff₀ hWR]
    linarith
  -- corner bounds for latitude
  have hclat1 : (j0 : ℝ) / (H : ℝ) * 180 - 90 ≤ lat := by
    have h1 : (j0 : ℝ) * 180 ≤ (lat + 90) * H := by
      have h := hjf1
      rw [div_mul_eq_mul_div, le_div_iff₀ (by norm_num : (0:ℝ) < 180)] at h
      linarith
    rw [sub_le_iff_le_add, div_mul_eq_mul_div, div_le_iff₀ hHR]
    linarith
  have hclat2 : lat < (j0 : ℝ) / (H : ℝ) * 180 - 90 + 180 / H := by
    have h2 : (lat + 90) * H < ((j0 : ℝ) + 1) * 180 := by
      have h := hjf2
      rw [div_mul_eq_mul_div, div_lt_iff₀ (by norm_num : (0:ℝ) < 180)] at h
      linarith
    have h3 : (j0 : ℝ) / (H : ℝ) * 180 - 90 + 180 / H =
        ((j0 : ℝ) + 1) * 180 / H - 90 := by
      field_simp
      ring
    rw [h3, lt_sub_iff_add_lt, lt_div_iff₀ hHR]
    linarith
  -- the interpolated offsets stay within one cell
  have hro1 : 0 ≤ ((si : ℕ) : ℝ) / ((L : ℕ) : ℝ) * (360 / W) := by positivity
  have hro2 : ((si : ℕ) : ℝ) / ((L : ℕ) : ℝ) * (360 / W) < 360 / W := by
    have hr1 : ((si : ℕ) : ℝ) / ((L : ℕ) : ℝ) < 1 := by
      rw [div_lt_one (by linarith)]
      exact_mod_cast hsiL'
    calc ((si : ℕ) : ℝ) / ((L : ℕ) : ℝ) * (360 / W) < 1 * (360 / W) := by
          apply mul_lt_mul_of_pos_right hr1
          positivity
      _ = 360 / W := one_mul _
  have hro3 : 0 ≤ ((sj : ℕ) : ℝ) / ((S : ℕ) : ℝ) * (180 / H) := by positivity
  have hro4 : ((sj : ℕ) : ℝ) / ((S : ℕ) : ℝ) * (180 / H) < 180 / H := by
    have hr1 : ((sj : ℕ) : ℝ) / ((S : ℕ) : ℝ) < 1 := by
      rw [div_lt_one hSR]
      exact_mod_cast hsjS
    calc ((sj : ℕ) : ℝ) / ((S : ℕ) : ℝ) * (180 / H) < 1 * (180 / H) := by
          apply mul_lt_mul_of_pos_right hr1
          positivity
      _ = 180 / H := one_mul _
  constructor
  · rw [abs_lt]
    constructor <;> linarith
  · rw [abs_lt]
    constructor <;> linarith

/-- **C3 (amended).**  For `lon ∈ [-180, 180)` and `lat ∈ [-90, 90)`,
provided the latitude-corrected subdivision count at the chosen pixel's
corner latitude is at least the one at the query latitude (true in
particular whenever the two latitudes give the same count, e.g. in the
northern hemisphere with an even pixel-row count), the round trip
`subpixel_to_geo ∘ geo_to_subpixel` returns a point within one *pixel's*
angular size of the input: longitude error `< 360/W` and latitude error
`< 180/H`.  Without that proviso the longitude error can span several
pixels, and at `lat = 90` (the closed endpoint) the row index wraps to
the south row — see the counterexample. -/
theorem c3_roundtrip_amended (W H S : ℕ) (lon lat : ℝ)
    (hW : 0 < W) (hH : 0 < H) (hS : 0 < S)
    (hlon1 : -180 ≤ lon) (hlon2 : lon < 180)
    (hlat1 : -90 ≤ lat) (hlat2 : lat < 90)
    (hmono : get_lon_subdivisons S lat ≤
      get_lon_subdivisons S
        (latitude_at_pixel H (geo_to_subpixel W H S lon lat).2.1)) :
    |(subpixel_to_geo W H S (geo_to_subpixel W H S lon lat).1
        (geo_to_subpixel W H S lon lat).2.1
        (geo_to_subpixel W H S lon lat).2.2).1 - lon| < 360 / (W : ℝ) ∧
    |(subpixel_to_geo W H S (geo_to_subpixel W H S lon lat).1
        (geo_to_subpixel W H S lon lat).2.1
        (geo_to_subpixel W H S lon lat).2.2).2 - lat| < 180 / (H : ℝ) := by
  have hWR : (0 : ℝ) < W := by exact_mod_cast hW
  have hHR : (0 : ℝ) < H := by exact_mod_cast hH
  have hiarg0 : 0 ≤ (lon + 180) / 360 * (W : ℝ) := by
    apply mul_nonneg _ hWR.le
    apply div_nonneg _ (by norm_num)
    linarith
  have hjarg0 : 0 ≤ (lat + 90) / 180 * (H : ℝ) := by
    apply mul_nonneg _ hHR.le
    apply div_nonneg _ (by norm_num)
    linarith
  have hiW : ⌊(lon + 180) / 360 * (W : ℝ)⌋₊ < W := by
    rw [Nat.floor_lt hiarg0]
    have h1 : (lon + 180) / 360 < 1 := by
      rw [div_lt_one (by norm_num)]
      linarith
    calc (lon + 180) / 360 * (W : ℝ) < 1 * W := mul_lt_mul_of_pos_right h1 hWR
      _ = W := one_mul _
  have hjH : ⌊(lat + 90) / 180 * (H : ℝ)⌋₊ < H := by
    rw [Nat.floor_lt hjarg0]
    have h1 : (lat + 90) / 180 < 1 := by
      rw [div_lt_one (by norm_num)]
      linarith
    calc (lat + 90) / 180 * (H : ℝ) < 1 * H := mul_lt_mul_of_pos_right h1 hHR
      _ = H := one_mul _
  have hfst : (geo_to_subpixel W H S lon lat).1 =
      ⌊(lon + 180) / 360 * (W : ℝ)⌋₊ := by
    simp only [geo_to_subpixel_eq]
    exact Nat.mod_eq_of_lt hiW
  have hsnd1 : (geo_to_subpixel W H S lon lat).2.1 =
      ⌊(lat + 90) / 180 * (H : ℝ)⌋₊ := by
    simp only [geo_to_subpixel_eq]
    exact Nat.mod_eq_of_lt hjH
  have hsnd2 : (geo_to_subpixel W H S lon lat).2.2 =
      ⌊(lon + 180) / 360 * (W : ℝ)⌋₊ % get_lon_subdivisons S lat * S +
        ⌊(lat + 90) / 180 * (H : ℝ)⌋₊ % S := by
    simp only [geo_to_subpixel_eq]
    rw [Nat.mod_eq_of_lt hiW, Nat.mod_eq_of_lt hjH]
  rw [hsnd1] at hmono
  unfold latitude_at_pixel at hmono
  rw [hfst, hsnd1, hsnd2]
  exact subpixel_roundtrip_aux W H S lon lat _ _ hW hH hS
    (Nat.floor_le hiarg0) (Nat.lt_floor_add_one _)
    (Nat.floor_le hjarg0) (Nat.lt_floor_add_one _) hmono

/-- Witness for C3 at `W = 4`, `H = 2`, `S = 8`, `(lon, lat) = (0, 0)`:
the pixel corner latitude is also `0`, so the subdivision proviso holds
by reflexivity. -/
theorem c3_roundtrip_amended_witness :
    (0 : ℕ) < 4 ∧ (0 : ℕ) < 2 ∧ (0 : ℕ) < 8 ∧
    (-180 : ℝ) ≤ 0 ∧ (0 : ℝ) < 180 ∧ (-90 : ℝ) ≤ 0 ∧ (0 : ℝ) < 90 ∧
    get_lon_subdivisons 8 0 ≤
      get_lon_subdivisons 8
        (latitude_at_pixel 2 (geo_to_subpixel 4 2 8 0 0).2.1) ∧
    |(subpixel_to_geo 4 2 8 (geo_to_subpixel 4 2 8 0 0).1
        (geo_to_subpixel 4 2 8 0 0).2.1 (geo_to_subpixel 4 2 8 0 0).2.2).1 - 0| <
      360 / ((4 : ℕ) : ℝ) := by
  have hj : (geo_to_subpixel 4 2 8 0 0).2.1 = 1 := by
    rw [geo_to_subpixel_eq]
    norm_num
  have hlat : latitude_at_pixel 2 1 = 0 := by
    unfold latitude_at_pixel
    norm_num
  have hmono : get_lon_subdivisons 8 0 ≤
      get_lon_subdivisons 8
        (latitude_at_pixel 2 (geo_to_subpixel 4 2 8 0 0).2.1) := by
    rw [hj, hlat]
  exact ⟨by norm_num, by norm_num, by norm_num, by norm_num, by norm_num,
    by norm_num, by norm_num, hmono,
    (c3_roundtrip_amended 4 2 8 0 0 (by norm_num) (by norm_num) (by norm_num)
      (by norm_num) (by norm_num) (by norm_num) (by norm_num) hmono).1⟩

/-- At `S = 8`, `lat = -30°`: `8 · cos 30° = 4√3 ∈ [6, 7)`, so the
subdivision count is `6`. -/
theorem get_lon_subdivisons_8_neg30 : get_lon_subdivisons 8 (-30) = 6 := by
  unfold get_lon_subdivisons
  have hrad : toRad (-30) = -(Real.pi / 6) := by
    unfold toRad
    ring
  rw [hrad, Real.cos_neg, Real.cos_pi_div_six]
  have hsq : Real.sqrt 3 ^ 2 = 3 := Real.sq_sqrt (by norm_num)
  have h0 : 0 ≤ Real.sqrt 3 := Real.sqrt_nonneg 3
  have hlow : (3 / 2 : ℝ) ≤ Real.sqrt 3 := by nlinarith [hsq, h0]
  have hup : Real.sqrt 3 < 7 / 4 := by nlinarith [hsq, h0]
  have h1 : ((8 : ℕ) : ℝ) * (Real.sqrt 3 / 2) = 4 * Real.sqrt 3 := by
    push_cast
    ring
  rw [h1, max_eq_left (by nlinarith)]
  rw [Nat.floor_eq_iff (by positivity)]
  constructor
  · push_cast
    nlinarith
  · push_cast
    nlinarith

/-- **C3 counterexample.**  With `W = 4`, `H = 2`, `S = 8`: at
`(lon, lat) = (90, -30)` the address is `(3, 0, 24)` and the round trip
returns longitude `360`, an error of `270` — far more than one cell
(pixel width `90`, and the cell at the south row spans at most the whole
pixel).  And at `(lon, lat) = (0, 90)` (the closed north endpoint of the
claimed range) the row wraps to `j = 0` and the round trip returns
latitude `-90`, an error of `180 > 90 = 180/H`. -/
theorem c3_counterexample :
    geo_to_subpixel 4 2 8 90 (-30) = (3, 0, 24) ∧
    (subpixel_to_geo 4 2 8 3 0 24).1 = 360 ∧
    ¬ (|(subpixel_to_geo 4 2 8 (geo_to_subpixel 4 2 8 90 (-30)).1
          (geo_to_subpixel 4 2 8 90 (-30)).2.1
          (geo_to_subpixel 4 2 8 90 (-30)).2.2).1 - 90| ≤ 360 / ((4 : ℕ) : ℝ)) ∧
    (subpixel_to_geo 4 2 8 (geo_to_subpixel 4 2 8 0 90).1
        (geo_to_subpixel 4 2 8 0 90).2.1
        (geo_to_subpixel 4 2 8 0 90).2.2).2 = -90 ∧
    ¬ (|(-90 : ℝ) - 90| ≤ 180 / ((2 : ℕ) : ℝ)) := by
  have hg : geo_to_subpixel 4 2 8 90 (-30) = (3, 0, 24) := by
    rw [geo_to_subpixel_eq, get_lon_subdivisons_8_neg30]
    have e1 : ((90 : ℝ) + 180) / 360 * ((4 : ℕ) : ℝ) = 3 := by norm_num
    have e2 : ((-30 : ℝ) + 90) / 180 * ((2 : ℕ) : ℝ) = 2 / 3 := by norm_num
    rw [e1, e2]
    have f1 : ⌊(3 : ℝ)⌋₊ = 3 := by norm_num
    have f2 : ⌊(2 / 3 : ℝ)⌋₊ = 0 := by
      rw [Nat.floor_eq_zero]
      norm_num
    rw [f1, f2]
  have hcorner : ((0 : ℕ) : ℝ) / ((2 : ℕ) : ℝ) * 180 - 90 = -90 := by norm_num
  have hs1 : (subpixel_to_geo 4 2 8 3 0 24).1 = 360 := by
    rw [subpixel_to_geo_fst, hcorner, get_lon_subdivisons_neg90]
    norm_num
  have hg2 : geo_to_subpixel 4 2 8 0 90 = (2, 0, 0) := by
    rw [geo_to_subpixel_eq, get_lon_subdivisons_pos90]
    have e1 : ((0 : ℝ) + 180) / 360 * ((4 : ℕ) : ℝ) = 2 := by norm_num
    have e2 : ((90 : ℝ) + 90) / 180 * ((2 : ℕ) : ℝ) = 2 := by norm_num
    rw [e1, e2]
    norm_num
  have hs2 : (subpixel_to_geo 4 2 8 2 0 0).2 = -90 := by
    rw [subpixel_to_geo_snd]
    norm_num
  refine ⟨hg, hs1, ?_, ?_, ?_⟩
  · rw [hg]
    simp only []
    rw [hs1]
    norm_num
  · rw [hg2]
    exact hs2
  · norm_num
